import Mathlib

/-!
Verification of the `Peekable` stream adapter
(`futures-util/src/stream/peek.rs`).

The adapter wraps a fused stream together with a one-slot cache
(`peeked : Option<St::Item>`) and exposes `peek` (inspect the next item
without consuming it) and the standard `poll_next` production operation.

Shallow embedding: a poll of a stream yields `Pending`, `Ready (some x)`
(an item) or `Ready none` (end).  The fused underlying stream is modelled
as a list of poll events consumed one per poll, with the Fuse guarantee
that after the first reported end every later poll reports end.  Each
adapter operation is instrumented with the number of polls it performs on
the underlying stream, so that the "polled at most once" claims are
facts about the definitions themselves.
-/

namespace PeekSpec

/-- Result of one poll: `Poll<T>` from `futures_core::task`. -/
inductive Poll (α : Type) where
  | pending : Poll α
  | ready (val : α) : Poll α
  deriving Repr, DecidableEq

/-- One event of the environment's underlying stream: it may report
not-ready, produce an item, or report end. -/
inductive Ev (α : Type) where
  | pend : Ev α
  | item (a : α) : Ev α
  | done : Ev α
  deriving Repr, DecidableEq

/-- Modelled from the spec: the `Fuse<St>` decorator is an external
collaborator whose source is not part of the verified core; the spec
consumes it as "a stream that forwards polls until first completion,
after which it idempotently reports completion".  The fused stream state
is the list of its remaining events; a poll consumes the head event, and
reporting end erases the remaining events so that every later poll
reports end again. -/
def pollFuse {α : Type} : List (Ev α) → Poll (Option α) × List (Ev α)
  | [] => (Poll.ready none, [])
  | Ev.pend :: rest => (Poll.pending, rest)
  | Ev.item a :: rest => (Poll.ready (some a), rest)
  | Ev.done :: _ => (Poll.ready none, [])

/-- `Peekable<St>`: the fused underlying stream plus the one-slot cache
`peeked`. -/
structure Peekable (α : Type) where
  stream : List (Ev α)
  peeked : Option α
  deriving Repr, DecidableEq

/-- `Peekable::new`: wraps the stream (fusing it) with an empty cache.
No poll happens at construction. -/
def Peekable.new {α : Type} (s : List (Ev α)) : Peekable α :=
  { stream := s, peeked := none }

/-- Result of one adapter operation: the poll result, the successor
state, and the number of polls performed on the underlying stream. -/
structure StepRes (α : Type) where
  res : Poll (Option α)
  st : Peekable α
  polls : Nat
  deriving Repr, DecidableEq

/-- `Peekable::peek`: if the cache is filled, return the cached item
without touching the stream; otherwise poll the underlying stream once,
propagating not-ready, caching and returning an item, and returning
`none` on end. -/
def Peekable.peek {α : Type} (p : Peekable α) : StepRes α :=
  match p.peeked with
  | some x => { res := Poll.ready (some x), st := p, polls := 0 }
  | none =>
    let r := pollFuse p.stream
    match r.1 with
    | Poll.pending => { res := Poll.pending, st := { p with stream := r.2 }, polls := 1 }
    | Poll.ready none => { res := Poll.ready none, st := { p with stream := r.2 }, polls := 1 }
    | Poll.ready (some a) =>
        { res := Poll.ready (some a), st := { stream := r.2, peeked := some a }, polls := 1 }

/-- `<Peekable as Stream>::poll_next`: take the cached item if present,
otherwise delegate to the underlying stream and forward its result
unchanged. -/
def Peekable.poll_next {α : Type} (p : Peekable α) : StepRes α :=
  match p.peeked with
  | some x => { res := Poll.ready (some x), st := { p with peeked := none }, polls := 0 }
  | none =>
    let r := pollFuse p.stream
    { res := r.1, st := { p with stream := r.2 }, polls := 1 }

/-- An external call: either `peek` or the production call `poll_next`. -/
inductive Op where
  | peekOp : Op
  | produceOp : Op
  deriving Repr, DecidableEq

/-- Dispatch one call to the adapter. -/
def step {α : Type} (op : Op) (p : Peekable α) : StepRes α :=
  match op with
  | Op.peekOp => p.peek
  | Op.produceOp => p.poll_next

/-- Run a sequence of calls, collecting every call's result, the final
state and the total number of underlying polls. -/
def runOps {α : Type} (p : Peekable α) : List Op → List (Poll (Option α)) × Peekable α × Nat
  | [] => ([], p, 0)
  | op :: ops =>
    let s := step op p
    let r := runOps s.st ops
    (s.res :: r.1, r.2.1, s.polls + r.2.2)

/-- Items of the underlying stream still to be produced: the items of the
event list up to the first end marker. -/
def itemsOf {α : Type} : List (Ev α) → List α
  | [] => []
  | Ev.pend :: rest => itemsOf rest
  | Ev.item a :: rest => a :: itemsOf rest
  | Ev.done :: _ => []

/-- Items the adapter can still yield: the cached item, if any, followed
by the items remaining in the underlying stream. -/
def remaining {α : Type} (p : Peekable α) : List α :=
  p.peeked.toList ++ itemsOf p.stream

/-- The item consumed by a production call with the given result: one
item when the result is `Ready(Some x)`, none otherwise. -/
def consumedOf {α : Type} : Poll (Option α) → List α
  | Poll.ready (some x) => [x]
  | _ => []

/-- Run a sequence of calls and collect the items actually consumed, i.e.
the items returned by `poll_next` calls (peek does not consume). -/
def produced {α : Type} (p : Peekable α) : List Op → List α × Peekable α
  | [] => ([], p)
  | op :: ops =>
    let s := step op p
    let r := produced s.st ops
    match op with
    | Op.peekOp => r
    | Op.produceOp => (consumedOf s.res ++ r.1, r.2)

/-- The fused stream currently reports end. -/
def streamEnded {α : Type} (s : List (Ev α)) : Prop :=
  (pollFuse s).1 = Poll.ready none

/-- The adapter is in its terminal configuration: empty cache over an
ended fused stream. -/
def Ended {α : Type} (p : Peekable α) : Prop :=
  p.peeked = none ∧ streamEnded p.stream

/-- The scenario stream of spec §8 P5: items `a`, `b`, `c` in order, each
possibly preceded by not-ready events, then end. -/
def threeItemStream {α : Type} (a b c : α) (n0 n1 n2 n3 : ℕ) : List (Ev α) :=
  List.replicate n0 Ev.pend ++ (Ev.item a ::
    (List.replicate n1 Ev.pend ++ (Ev.item b ::
      (List.replicate n2 Ev.pend ++ (Ev.item c ::
        (List.replicate n3 Ev.pend ++ [Ev.done]))))))

/-! ### Basic lemmas about single calls -/

theorem peek_filled {α : Type} (p : Peekable α) (x : α) (h : p.peeked = some x) :
    p.peek = { res := Poll.ready (some x), st := p, polls := 0 } := by
  unfold Peekable.peek
  rw [h]

theorem poll_next_filled {α : Type} (p : Peekable α) (x : α) (h : p.peeked = some x) :
    p.poll_next = { res := Poll.ready (some x), st := { p with peeked := none }, polls := 0 } := by
  unfold Peekable.poll_next
  rw [h]

theorem peek_res_some_filled {α : Type} {p : Peekable α} {x : α}
    (h : p.peek.res = Poll.ready (some x)) : p.peek.st.peeked = some x := by
  obtain ⟨s, pk⟩ := p
  cases pk with
  | some y =>
    simp [Peekable.peek] at h ⊢
    simp [h]
  | none =>
    cases s with
    | nil => simp [Peekable.peek, pollFuse] at h
    | cons e r =>
      cases e with
      | pend => simp [Peekable.peek, pollFuse] at h
      | item a =>
        simp [Peekable.peek, pollFuse] at h ⊢
        exact h
      | done => simp [Peekable.peek, pollFuse] at h

theorem peek_polls_le_one {α : Type} (p : Peekable α) : p.peek.polls ≤ 1 := by
  obtain ⟨s, pk⟩ := p
  cases pk with
  | some y => simp [Peekable.peek]
  | none =>
    cases s with
    | nil => simp [Peekable.peek, pollFuse]
    | cons e r => cases e <;> simp [Peekable.peek, pollFuse]

theorem poll_next_polls_le_one {α : Type} (p : Peekable α) : p.poll_next.polls ≤ 1 := by
  obtain ⟨s, pk⟩ := p
  cases pk <;> simp [Peekable.poll_next]

theorem runOps_peek_filled {α : Type} (p : Peekable α) (x : α) (h : p.peeked = some x)
    (n : ℕ) :
    runOps p (List.replicate n Op.peekOp) = (List.replicate n (Poll.ready (some x)), p, 0) := by
  induction n with
  | zero => simp [runOps]
  | succ k ih =>
    rw [List.replicate_succ, List.replicate_succ]
    simp [runOps, step, peek_filled p x h, ih]

/-! ### End absorption: terminal configurations are absorbing -/

theorem pollFuse_end_tail {α : Type} (s : List (Ev α))
    (h : (pollFuse s).1 = Poll.ready none) : (pollFuse s).2 = [] := by
  cases s with
  | nil => rfl
  | cons e r => cases e <;> simp_all [pollFuse]

theorem streamEnded_nil {α : Type} : streamEnded ([] : List (Ev α)) := rfl

theorem step_end_ended {α : Type} (op : Op) (p : Peekable α)
    (h : (step op p).res = Poll.ready none) : Ended (step op p).st := by
  obtain ⟨s, pk⟩ := p
  cases op with
  | peekOp =>
    cases pk with
    | some y => simp [step, Peekable.peek] at h
    | none =>
      cases s with
      | nil => exact ⟨rfl, streamEnded_nil⟩
      | cons e r =>
        cases e with
        | pend => simp [step, Peekable.peek, pollFuse] at h
        | item a => simp [step, Peekable.peek, pollFuse] at h
        | done => exact ⟨rfl, streamEnded_nil⟩
  | produceOp =>
    cases pk with
    | some y => simp [step, Peekable.poll_next] at h
    | none =>
      refine ⟨rfl, ?_⟩
      have ht : (pollFuse s).2 = [] := by
        apply pollFuse_end_tail
        simpa [step, Peekable.poll_next] using h
      simp only [step, Peekable.poll_next]
      rw [ht]
      exact streamEnded_nil

theorem ended_step {α : Type} (op : Op) (p : Peekable α) (h : Ended p) :
    (step op p).res = Poll.ready none ∧ Ended (step op p).st := by
  obtain ⟨s, pk⟩ := p
  obtain ⟨hpk, hs⟩ := h
  simp only at hpk
  subst hpk
  have hs' : (pollFuse s).1 = Poll.ready none := hs
  have ht : (pollFuse s).2 = [] := pollFuse_end_tail s hs'
  cases op with
  | peekOp =>
    constructor
    · simp [step, Peekable.peek, hs']
    · refine ⟨?_, ?_⟩
      · simp [step, Peekable.peek, hs']
      · simp only [step, Peekable.peek, hs', ht]
        exact streamEnded_nil
  | produceOp =>
    constructor
    · simpa [step, Peekable.poll_next] using hs'
    · refine ⟨rfl, ?_⟩
      simp only [step, Peekable.poll_next]
      rw [ht]
      exact streamEnded_nil

theorem ended_runOps {α : Type} (ops : List Op) (p : Peekable α) (h : Ended p) :
    (runOps p ops).1 = List.replicate ops.length (Poll.ready none) := by
  induction ops generalizing p with
  | nil => simp [runOps]
  | cons op ops ih =>
    obtain ⟨hres, hst⟩ := ended_step op p h
    simp [runOps, List.replicate_succ, hres, ih _ hst]

/-! ### Order preservation: no item is reordered, duplicated or skipped -/

theorem remaining_peek {α : Type} (p : Peekable α) :
    remaining p.peek.st = remaining p := by
  obtain ⟨s, pk⟩ := p
  cases pk with
  | some y => simp [Peekable.peek]
  | none =>
    cases s with
    | nil => simp [Peekable.peek, pollFuse, remaining, itemsOf]
    | cons e r => cases e <;> simp [Peekable.peek, pollFuse, remaining, itemsOf]

theorem remaining_poll_next {α : Type} (p : Peekable α) :
    remaining p = consumedOf p.poll_next.res ++ remaining p.poll_next.st := by
  obtain ⟨s, pk⟩ := p
  cases pk with
  | some y => simp [Peekable.poll_next, consumedOf, remaining]
  | none =>
    cases s with
    | nil => simp [Peekable.poll_next, pollFuse, consumedOf, remaining, itemsOf]
    | cons e r =>
      cases e <;> simp [Peekable.poll_next, pollFuse, consumedOf, remaining, itemsOf]

theorem produced_append_remaining {α : Type} (ops : List Op) (p : Peekable α) :
    (produced p ops).1 ++ remaining (produced p ops).2 = remaining p := by
  induction ops generalizing p with
  | nil => simp [produced]
  | cons op ops ih =>
    cases op with
    | peekOp =>
      have h := ih p.peek.st
      rw [remaining_peek p] at h
      simpa [produced, step] using h
    | produceOp =>
      have h := ih (step Op.produceOp p).st
      simp only [produced, List.append_assoc, h]
      exact (remaining_poll_next p).symm

theorem itemsOf_replicate_pend {α : Type} (n : ℕ) (l : List (Ev α)) :
    itemsOf (List.replicate n Ev.pend ++ l) = itemsOf l := by
  induction n with
  | zero => simp
  | succ k ih => simpa [List.replicate_succ, itemsOf] using ih

theorem itemsOf_threeItemStream {α : Type} (a b c : α) (n0 n1 n2 n3 : ℕ) :
    itemsOf (threeItemStream a b c n0 n1 n2 n3) = [a, b, c] := by
  simp [threeItemStream, itemsOf_replicate_pend, itemsOf]

/-! ### Claim theorems -/

/-- C1: Idempotent peek.  In a run of N + 1 consecutive `peek` calls with
no intervening production call, if the first call returns `Ready(Some x)`
then every call in the run returns `Ready(Some x)`, and the underlying
fused stream is polled at most once in total across the whole run. -/
theorem peek_idempotent_run {α : Type} (p : Peekable α) (N : ℕ) (x : α)
    (h : (runOps p (List.replicate (N + 1) Op.peekOp)).1.head?
      = some (Poll.ready (some x))) :
    (runOps p (List.replicate (N + 1) Op.peekOp)).1
        = List.replicate (N + 1) (Poll.ready (some x)) ∧
    (runOps p (List.replicate (N + 1) Op.peekOp)).2.2 ≤ 1 := by
  have hres : p.peek.res = Poll.ready (some x) := by
    simpa [List.replicate_succ, runOps, step] using h
  have hfill := peek_res_some_filled hres
  have hrun := runOps_peek_filled p.peek.st x hfill N
  constructor
  · simp [List.replicate_succ, runOps, step, hres, hrun]
  · have hp := peek_polls_le_one p
    simp only [List.replicate_succ, runOps, step, hrun]
    simpa using hp

/-- Witness for C1 on a concrete stream of one item, three peeks. -/
theorem peek_idempotent_run_witness :
    (runOps (Peekable.new [Ev.item (1 : ℕ)]) (List.replicate (2 + 1) Op.peekOp)).1
        = List.replicate (2 + 1) (Poll.ready (some 1)) ∧
    (runOps (Peekable.new [Ev.item (1 : ℕ)]) (List.replicate (2 + 1) Op.peekOp)).2.2 ≤ 1 :=
  peek_idempotent_run (Peekable.new [Ev.item 1]) 2 1 (by decide)

/-- C2: Drain before repoll.  If a `peek` call returns `Ready(Some x)`
(so the cache holds x), the immediately following `poll_next` returns
`Ready(Some x)` with the cached item, polls the underlying stream zero
times, and leaves the cache empty. -/
theorem drain_before_repoll {α : Type} (p : Peekable α) (x : α)
    (h : p.peek.res = Poll.ready (some x)) :
    p.peek.st.poll_next.res = Poll.ready (some x) ∧
    p.peek.st.poll_next.polls = 0 ∧
    p.peek.st.poll_next.st.peeked = none := by
  have hfill := peek_res_some_filled h
  simp [poll_next_filled _ _ hfill]

/-- Witness for C2 on a concrete one-item stream. -/
theorem drain_before_repoll_witness :
    (Peekable.new [Ev.item (7 : ℕ)]).peek.st.poll_next.res = Poll.ready (some 7) ∧
    (Peekable.new [Ev.item (7 : ℕ)]).peek.st.poll_next.polls = 0 ∧
    (Peekable.new [Ev.item (7 : ℕ)]).peek.st.poll_next.st.peeked = none :=
  drain_before_repoll (Peekable.new [Ev.item 7]) 7 (by decide)

/-- C3: Pass-through when empty.  With an empty cache, `poll_next`
returns exactly what polling the underlying fused stream returns (for
every outcome: not-ready, item, end), advances the underlying stream
exactly as that poll does, and performs exactly one underlying poll. -/
theorem pass_through_when_empty {α : Type} (p : Peekable α) (h : p.peeked = none) :
    p.poll_next.res = (pollFuse p.stream).1 ∧
    p.poll_next.st.stream = (pollFuse p.stream).2 ∧
    p.poll_next.st.peeked = none ∧
    p.poll_next.polls = 1 := by
  simp [Peekable.poll_next, h]

/-- Witness for C3 on a concrete not-ready stream. -/
theorem pass_through_when_empty_witness :
    (Peekable.new ([Ev.pend] : List (Ev ℕ))).poll_next.res
        = (pollFuse (Peekable.new ([Ev.pend] : List (Ev ℕ))).stream).1 ∧
    (Peekable.new ([Ev.pend] : List (Ev ℕ))).poll_next.st.stream
        = (pollFuse (Peekable.new ([Ev.pend] : List (Ev ℕ))).stream).2 ∧
    (Peekable.new ([Ev.pend] : List (Ev ℕ))).poll_next.st.peeked = none ∧
    (Peekable.new ([Ev.pend] : List (Ev ℕ))).poll_next.polls = 1 :=
  pass_through_when_empty (Peekable.new [Ev.pend]) rfl

/-- C4: End absorption.  Once any `peek` or `poll_next` call yields end
(`Ready(None)`), every later call yields end, for every interleaving of
subsequent `peek` and `poll_next` calls. -/
theorem end_absorption {α : Type} (p : Peekable α) (op : Op) (ops : List Op)
    (h : (step op p).res = Poll.ready none) :
    (runOps (step op p).st ops).1 = List.replicate ops.length (Poll.ready none) :=
  ended_runOps ops _ (step_end_ended op p h)

/-- Witness for C4 on a concrete stream that ends immediately. -/
theorem end_absorption_witness :
    (runOps (step Op.produceOp (Peekable.new ([Ev.done] : List (Ev ℕ)))).st
        [Op.peekOp, Op.produceOp]).1
      = List.replicate [Op.peekOp, Op.produceOp].length (Poll.ready none) :=
  end_absorption (Peekable.new ([Ev.done] : List (Ev ℕ))) Op.produceOp
    [Op.peekOp, Op.produceOp] (by decide)

/-- C5: Order preservation.  For an underlying stream producing the
items [a, b, c] in that order, each possibly preceded by any number of
not-ready events, every sequence of `peek` and `poll_next` calls that
exhausts the adapter consumes exactly the items a, b, c, once each, in
that order. -/
theorem order_preservation {α : Type} (a b c : α) (n0 n1 n2 n3 : ℕ) (ops : List Op)
    (h : remaining (produced (Peekable.new (threeItemStream a b c n0 n1 n2 n3)) ops).2 = []) :
    (produced (Peekable.new (threeItemStream a b c n0 n1 n2 n3)) ops).1 = [a, b, c] := by
  have hspec := produced_append_remaining ops (Peekable.new (threeItemStream a b c n0 n1 n2 n3))
  rw [h, List.append_nil] at hspec
  rw [hspec]
  simp [remaining, Peekable.new, itemsOf_threeItemStream]

/-- Witness for C5 on a concrete interleaved stream drained by eight
production calls. -/
theorem order_preservation_witness :
    (produced (Peekable.new (threeItemStream (1 : ℕ) 2 3 1 1 1 1))
        (List.replicate 8 Op.produceOp)).1 = [1, 2, 3] :=
  order_preservation 1 2 3 1 1 1 1 (List.replicate 8 Op.produceOp) (by decide)

/-- C6: At most one underlying poll per call; not-ready forwarded
verbatim.  Every single `peek` or `poll_next` call polls the underlying
fused stream at most once, and when the cache is empty and that
underlying poll reports not-ready, the call returns not-ready. -/
theorem one_poll_pending_verbatim {α : Type} (op : Op) (p : Peekable α) :
    (step op p).polls ≤ 1 ∧
    (p.peeked = none → (pollFuse p.stream).1 = Poll.pending →
      (step op p).res = Poll.pending) := by
  cases op with
  | peekOp =>
    refine ⟨peek_polls_le_one p, ?_⟩
    intro h1 h2
    simp [step, Peekable.peek, h1, h2]
  | produceOp =>
    refine ⟨poll_next_polls_le_one p, ?_⟩
    intro h1 h2
    simp [step, Peekable.poll_next, h1, h2]

/-- Witness for C6 on a concrete not-ready stream. -/
theorem one_poll_pending_verbatim_witness :
    (step Op.produceOp (Peekable.new ([Ev.pend] : List (Ev ℕ)))).polls ≤ 1 ∧
    (step Op.produceOp (Peekable.new ([Ev.pend] : List (Ev ℕ)))).res = Poll.pending :=
  ⟨(one_poll_pending_verbatim Op.produceOp (Peekable.new [Ev.pend])).1,
   (one_poll_pending_verbatim Op.produceOp (Peekable.new [Ev.pend])).2 rfl rfl⟩

/-- C7: Peek contract on an empty cache.  With an empty cache, `peek`
polls the underlying stream exactly once, and: on not-ready it returns
not-ready; on an item it stores the item (Empty → Filled) and returns
it; on end it returns `Ready(None)` and the cache stays empty. -/
theorem peek_empty_contract {α : Type} (p : Peekable α) (h : p.peeked = none) :
    p.peek.polls = 1 ∧
    ((pollFuse p.stream).1 = Poll.pending → p.peek.res = Poll.pending) ∧
    (∀ a, (pollFuse p.stream).1 = Poll.ready (some a) →
      p.peek.res = Poll.ready (some a) ∧ p.peek.st.peeked = some a) ∧
    ((pollFuse p.stream).1 = Poll.ready none →
      p.peek.res = Poll.ready none ∧ p.peek.st.peeked = none) := by
  refine ⟨?_, ?_, ?_, ?_⟩
  · rcases hr : (pollFuse p.stream).1 with _ | (_ | a) <;> simp [Peekable.peek, h, hr]
  · intro hp
    simp [Peekable.peek, h, hp]
  · intro a ha
    simp [Peekable.peek, h, ha]
  · intro he
    simp [Peekable.peek, h, he]

/-- Witness for C7 on a concrete one-item stream, item case. -/
theorem peek_empty_contract_witness :
    (Peekable.new [Ev.item (5 : ℕ)]).peek.polls = 1 ∧
    (Peekable.new [Ev.item (5 : ℕ)]).peek.res = Poll.ready (some 5) ∧
    (Peekable.new [Ev.item (5 : ℕ)]).peek.st.peeked = some 5 := by
  have h := peek_empty_contract (Peekable.new [Ev.item (5 : ℕ)]) rfl
  exact ⟨h.1, (h.2.2.1 5 rfl).1, (h.2.2.1 5 rfl).2⟩

/-- C8: Pending leaves the cache unchanged.  If the cache is empty and a
`peek` or `poll_next` call returns not-ready, the cache is still empty
after the call. -/
theorem pending_leaves_cache_empty {α : Type} (op : Op) (p : Peekable α)
    (h : p.peeked = none) (h2 : (step op p).res = Poll.pending) :
    (step op p).st.peeked = none := by
  cases op with
  | peekOp =>
    rcases hr : (pollFuse p.stream).1 with _ | (_ | a)
    · simp [step, Peekable.peek, h, hr]
    · simp [step, Peekable.peek, h, hr] at h2
    · simp [step, Peekable.peek, h, hr] at h2
  | produceOp => simp [step, Peekable.poll_next, h]

/-- Witness for C8 on a concrete not-ready stream. -/
theorem pending_leaves_cache_empty_witness :
    (step Op.peekOp (Peekable.new ([Ev.pend] : List (Ev ℕ)))).st.peeked = none :=
  pending_leaves_cache_empty Op.peekOp (Peekable.new [Ev.pend]) rfl (by decide)

/-- C9: A filled cache dominates the underlying stream.  With the cache
holding x, `poll_next` returns `Ready(Some x)`, empties the cache, polls
the underlying stream zero times, and leaves the underlying stream state
untouched — whatever that stream would currently report. -/
theorem filled_cache_dominates {α : Type} (p : Peekable α) (x : α)
    (h : p.peeked = some x) :
    p.poll_next.res = Poll.ready (some x) ∧
    p.poll_next.st.peeked = none ∧
    p.poll_next.polls = 0 ∧
    p.poll_next.st.stream = p.stream := by
  simp [poll_next_filled p x h]

/-- Witness for C9: the cached item is delivered even though the
underlying stream would report end. -/
theorem filled_cache_dominates_witness :
    ({ stream := [Ev.done], peeked := some 4 } : Peekable ℕ).poll_next.res
        = Poll.ready (some 4) ∧
    ({ stream := [Ev.done], peeked := some 4 } : Peekable ℕ).poll_next.st.peeked = none ∧
    ({ stream := [Ev.done], peeked := some 4 } : Peekable ℕ).poll_next.polls = 0 ∧
    ({ stream := [Ev.done], peeked := some 4 } : Peekable ℕ).poll_next.st.stream
        = ({ stream := [Ev.done], peeked := some 4 } : Peekable ℕ).stream :=
  filled_cache_dominates { stream := [Ev.done], peeked := some 4 } 4 rfl

/-- C10: Lazy construction.  `Peekable::new` starts with an empty cache
and leaves the wrapped fused stream in its initial state — no poll
happens at construction. -/
theorem new_lazy {α : Type} (s : List (Ev α)) :
    (Peekable.new s).peeked = none ∧ (Peekable.new s).stream = s :=
  ⟨rfl, rfl⟩

end PeekSpec
